import Mathlib

/-!
A shallow embedding of the streaming lexer in `src/tokenize.rs` of the
`zyxw59/formatting` repository, together with proofs of the specification's
claims about it.

Modelling conventions:
* Rust `String`s are `List Char` (so that induction over contents is direct).
* The underlying `BufRead` source is modelled as a list of `read_line`
  outcomes (`RLine`): each successful read yields the characters of one line
  (including its terminating newline, when present); a failed read carries the
  I/O error kind.  An exhausted list models end of stream: further `read_line`
  calls succeed and produce no characters, exactly as Rust's `read_line`
  returns `Ok(0)` at EOF.
* Rust `io::ErrorKind` is collapsed to the distinction the code inspects:
  `InvalidData` (produced by `read_line` when the bytes are not valid UTF-8)
  versus everything else.
* `char::is_alphanumeric` is modelled by `Char.isAlphanum`.
* Fallible methods return `Except ErrorKind _`; the Rust `Error` struct is a
  `Context` wrapper whose observable content is its `ErrorKind` (via
  `Error::kind`), so errors are represented by their kind.
* `&mut self` methods become state-passing functions on `BufReadIter`.
* The two `loop`s (`ident`, `verbatim`) and the token-collection loop are
  written with an explicit fuel parameter for structural recursion; the
  entry points supply `remaining`, an upper bound on the number of loop
  iterations, so the fuel never runs out on the executions described by the
  theorems below (each theorem's proof discharges the needed fuel bound).
-/

deriving instance DecidableEq for Except

namespace Formatting

/-- The two classes of `io::ErrorKind` that `ErrorKind::from_io` distinguishes:
`InvalidData` and all others. -/
inductive IoErrKind where
  | invalidData
  | other
deriving DecidableEq

/-- One `read_line` outcome of the underlying `BufRead` source. -/
inductive RLine where
  | ok (chars : List Char)
  | err (e : IoErrKind)
deriving DecidableEq

/-- `enum Token` from `src/tokenize.rs`. -/
inductive Token where
  /-- `{` -/
  | BeginGroup
  /-- `}` -/
  | EndGroup
  /-- A single character, including escaped `\{`, `\}`, and `\\`. -/
  | Char (c : Char)
  /-- A command to be executed. -/
  | Command (name : List Char)
  /-- A string to be included verbatim in the output without further parsing. -/
  | Verbatim (content : List Char)
deriving DecidableEq

/-- `enum ErrorKind` from `src/tokenize.rs`. -/
inductive ErrorKind where
  | EndOfInput
  | UnclosedVerbatim (line column : Nat)
  | Unicode (line : Nat)
  | Io (line : Nat)
deriving DecidableEq

/-- `ErrorKind::from_io`: `InvalidData` becomes `Unicode(line)`, any other
I/O failure becomes `Io(line)`. -/
def ErrorKind.from_io (e : IoErrKind) (line : Nat) : ErrorKind :=
  match e with
  | .invalidData => .Unicode line
  | .other => .Io line

/-- `struct BufReadIter` from `src/tokenize.rs`.  `input` is the remaining
source (as `read_line` outcomes); `vec_buf` is the buffered current line
(`str_buf` is omitted: it always holds the same characters as `vec_buf`). -/
structure BufReadIter where
  input : List RLine
  vec_buf : List Char
  column : Nat
  line : Nat
deriving DecidableEq

namespace BufReadIter

/-- `BufReadIter::new`. -/
def new (input : List RLine) : BufReadIter :=
  { input := input, vec_buf := [], column := 0, line := 0 }

/-- `BufReadIter::fill_buffer`: reset the column, increment the line counter,
clear the buffer, then `read_line` into it (an error is reported with the
already-incremented line number). -/
def fill_buffer (s : BufReadIter) : Except ErrorKind BufReadIter :=
  let line := s.line + 1
  match s.input with
  | [] => .ok { s with column := 0, line := line, vec_buf := [] }
  | .err e :: _ => .error (ErrorKind.from_io e line)
  | .ok chars :: rest =>
      .ok { input := rest, vec_buf := chars, column := 0, line := line }

/-- `BufReadIter::next`: increment the column; if a character is present at the
new column return it, otherwise refill the buffer and retry the lookup. -/
def next (s : BufReadIter) : Except ErrorKind (Option Char × BufReadIter) :=
  let s := { s with column := s.column + 1 }
  match s.vec_buf[s.column]? with
  | some c => .ok (some c, s)
  | none =>
      match s.fill_buffer with
      | .error e => .error e
      | .ok s => .ok (s.vec_buf[s.column]?, s)

/-- `BufReadIter::expect_next`: like `next`, but end of input is an error. -/
def expect_next (s : BufReadIter) : Except ErrorKind (Char × BufReadIter) :=
  match s.next with
  | .error e => .error e
  | .ok (some c, s) => .ok (c, s)
  | .ok (none, _) => .error .EndOfInput

/-- `BufReadIter::peek`: the next character in the current line, without
advancing the stream (and in this embedding, without any state change at
all — the Rust method mutates nothing). -/
def peek (s : BufReadIter) : Option Char :=
  s.vec_buf[s.column + 1]?

end BufReadIter

/-- The length contributed by one `read_line` outcome. -/
def okLen : RLine → Nat
  | .ok cs => cs.length
  | .err _ => 0

/-- An upper bound on how many more characters (plus refills) the iterator can
deliver; used as loop fuel by the entry points below. -/
def remaining (s : BufReadIter) : Nat :=
  (s.vec_buf.length - s.column) + (s.input.map okLen).sum + s.input.length + 1

namespace Tokens

open BufReadIter

/-- The `while let Some(&c) = self.input.peek()` loop of `Tokens::ident`,
with fuel.  The `.error` fallback is unreachable: `next` is only called after
`peek` succeeded, so it stays within the current line. -/
def identLoop (fuel : Nat) (command : List Char) (s : BufReadIter) :
    List Char × BufReadIter :=
  match fuel with
  | 0 => (command, s)
  | fuel + 1 =>
      match s.peek with
      | some c =>
          if c.isAlphanum then
            match s.next with
            | .ok (_, s) => identLoop fuel (command ++ [c]) s
            | .error _ => (command, s)
          else (command, s)
      | none => (command, s)

/-- `Tokens::ident`: extract an identifier starting with `first`.  The loop
runs at most once per character of the current line, so the line length is
enough fuel. -/
def ident (first : Char) (s : BufReadIter) : List Char × BufReadIter :=
  identLoop s.vec_buf.length [first] s

/-- The `loop` of `Tokens::verbatim`, with fuel.  The fuel-exhausted branch is
unreachable for the executions described below (`verbatim` supplies
`remaining`, and every iteration consumes at least one unit of it). -/
def verbatimLoop (fuel : Nat) (delimiter : Char) (start_line start_column : Nat)
    (verb : List Char) (s : BufReadIter) :
    Except ErrorKind (List Char × BufReadIter) :=
  match fuel with
  | 0 => .error (.UnclosedVerbatim start_line start_column)
  | fuel + 1 =>
      match s.next with
      | .error e => .error e
      | .ok (none, _) => .error (.UnclosedVerbatim start_line start_column)
      | .ok (some c, s) =>
          if c = delimiter then
            match s.peek with
            | some c2 =>
                if c2 = delimiter then
                  match s.next with
                  | .error e => .error e
                  | .ok (_, s) =>
                      verbatimLoop fuel delimiter start_line start_column
                        (verb ++ [delimiter]) s
                else .ok (verb, s)
            | none => .ok (verb, s)
          else verbatimLoop fuel delimiter start_line start_column (verb ++ [c]) s

/-- `Tokens::verbatim`: extract a verbatim string delimited by `delimiter`,
reporting `start_line`/`start_column` if the stream ends first. -/
def verbatim (delimiter : Char) (start_line start_column : Nat)
    (s : BufReadIter) : Except ErrorKind (List Char × BufReadIter) :=
  verbatimLoop (remaining s) delimiter start_line start_column [] s

/-- `Tokens::next_res`: the main dispatch.  (The Rust `Tokens` struct is a
trivial wrapper holding one `BufReadIter` field; its state is the
`BufReadIter` itself.) -/
def next_res (s : BufReadIter) : Except ErrorKind (Option Token × BufReadIter) :=
  match s.next with
  | .error e => .error e
  | .ok (none, s) => .ok (none, s)
  | .ok (some c, s) =>
      if c = '{' then .ok (some .BeginGroup, s)
      else if c = '}' then .ok (some .EndGroup, s)
      else if c = '\\' then
        match s.expect_next with
        | .error e => .error e
        | .ok (c, s) =>
            if c = '\\' then .ok (some (.Char '\\'), s)
            else if c = '{' then .ok (some (.Char '{'), s)
            else if c = '}' then .ok (some (.Char '}'), s)
            else if c.isAlphanum then
              match ident c s with
              | (command, s) =>
                  if command = "verbatim".toList then
                    match s.expect_next with
                    | .error e => .error e
                    | .ok (delim, s) =>
                        match verbatim delim s.line s.column s with
                        | .error e => .error e
                        | .ok (v, s) => .ok (some (.Verbatim v), s)
                  else .ok (some (.Command command), s)
            else .ok (some (.Command [c]), s)
      else .ok (some (.Char c), s)

/-- The token-collection loop: repeatedly call `next_res` until it yields no
token, accumulating the tokens in order (this is
`tokens.collect::<Result<Vec<_>, _>>()` over the `Iterator` impl).  The
fuel-exhausted branch is unreachable: `tokenize` supplies `remaining`, and
producing a token consumes at least one unit of it. -/
def tokensLoop (fuel : Nat) (acc : List Token) (s : BufReadIter) :
    Except ErrorKind (List Token) :=
  match fuel with
  | 0 => .error .EndOfInput
  | fuel + 1 =>
      match next_res s with
      | .error e => .error e
      | .ok (none, _) => .ok acc
      | .ok (some t, s) => tokensLoop fuel (acc ++ [t]) s

/-- Tokenize a whole source: collect all tokens, or the first error. -/
def tokenize (input : List RLine) : Except ErrorKind (List Token) :=
  tokensLoop (remaining (BufReadIter.new input)) [] (BufReadIter.new input)

end Tokens

open Tokens

-- Sanity checks: the five unit tests of `src/tokenize.rs`.

example :
    tokenize [.ok ['{', 'a', 'b', '}']] =
      .ok [.BeginGroup, .Char 'a', .Char 'b', .EndGroup] := by decide

example :
    tokenize [.ok ['\\', 'a', 'b', 'c']] = .ok [.Command ['a', 'b', 'c']] := by
  decide

example :
    tokenize [.ok "\\verbatim!a\\b!".toList] =
      .ok [.Verbatim ['a', '\\', 'b']] := by decide

example :
    tokenize [.ok "\\verbatim!a\\b".toList] =
      .error (.UnclosedVerbatim 1 9) := by decide

example :
    tokenize [.ok "\\verbatim!a!!b!".toList] =
      .ok [.Verbatim ['a', '!', 'b']] := by decide

example : tokenize [.err .invalidData] = .error (.Unicode 1) := by decide

/-! ### List helpers -/

theorem getElem?_of_drop {α : Type} {L xs : List α} {n : Nat} {c : α}
    (h : L.drop n = c :: xs) : L[n]? = some c := by
  rw [← List.head?_drop, h, List.head?_cons]

theorem drop_succ_of_drop {α : Type} {L xs : List α} {n : Nat} {c : α}
    (h : L.drop n = c :: xs) : L.drop (n + 1) = xs := by
  rw [← List.tail_drop, h, List.tail_cons]

/-! ### Step lemmas for `BufReadIter` -/

namespace BufReadIter

theorem next_within {L : List Char} {k : Nat} {c : Char} (inp : List RLine)
    (ln : Nat) (h : L[k + 1]? = some c) :
    next ⟨inp, L, k, ln⟩ = .ok (some c, ⟨inp, L, k + 1, ln⟩) := by
  simp [next, h]

theorem next_refill {L M : List Char} {k : Nat} (rest : List RLine) (ln : Nat)
    (h : L[k + 1]? = none) :
    next ⟨.ok M :: rest, L, k, ln⟩ = .ok (M[0]?, ⟨rest, M, 0, ln + 1⟩) := by
  simp [next, h, fill_buffer]

theorem next_eof {L : List Char} {k : Nat} (ln : Nat) (h : L[k + 1]? = none) :
    next ⟨[], L, k, ln⟩ = .ok (none, ⟨[], [], 0, ln + 1⟩) := by
  simp [next, h, fill_buffer]

theorem next_err {L : List Char} {k : Nat} {e : IoErrKind} (rest : List RLine)
    (ln : Nat) (h : L[k + 1]? = none) :
    next ⟨.err e :: rest, L, k, ln⟩ = .error (ErrorKind.from_io e (ln + 1)) := by
  simp [next, h, fill_buffer]

theorem expect_next_within {L : List Char} {k : Nat} {c : Char}
    (inp : List RLine) (ln : Nat) (h : L[k + 1]? = some c) :
    expect_next ⟨inp, L, k, ln⟩ = .ok (c, ⟨inp, L, k + 1, ln⟩) := by
  simp [expect_next, next_within inp ln h]

theorem expect_next_eof {L : List Char} {k : Nat} (ln : Nat)
    (h : L[k + 1]? = none) :
    expect_next ⟨[], L, k, ln⟩ = .error .EndOfInput := by
  simp [expect_next, next_eof ln h]

end BufReadIter

/-! ### The `ident` loop -/

namespace Tokens

/-- `identLoop` consumes exactly a run of alphanumeric characters sitting
after the current position on the current line, stopping at the first
non-alphanumeric character (or end of line). -/
theorem identLoop_spec (run : List Char) :
    ∀ (rest : List Char) (inp : List RLine) (L : List Char)
      (k fuel ln : Nat) (command : List Char),
      L.drop (k + 1) = run ++ rest →
      (∀ c ∈ run, c.isAlphanum = true) →
      (∀ c, rest.head? = some c → c.isAlphanum = false) →
      run.length < fuel →
      identLoop fuel command ⟨inp, L, k, ln⟩ =
        (command ++ run, ⟨inp, L, k + run.length, ln⟩) := by
  induction run with
  | nil =>
    intro rest inp L k fuel ln command hdrop _ hrest hfuel
    obtain ⟨fuel, rfl⟩ : ∃ f, fuel = f + 1 := ⟨fuel - 1, by omega⟩
    have hpeek : BufReadIter.peek ⟨inp, L, k, ln⟩ = rest.head? := by
      simp only [BufReadIter.peek, ← List.head?_drop, hdrop, List.nil_append]
    cases hr : rest.head? with
    | none => simp [identLoop, hpeek, hr]
    | some c => simp [identLoop, hpeek, hr, hrest c hr]
  | cons c run ih =>
    intro rest inp L k fuel ln command hdrop hall hrest hfuel
    obtain ⟨fuel, rfl⟩ : ∃ f, fuel = f + 1 := ⟨fuel - 1, by omega⟩
    rw [List.cons_append] at hdrop
    have h1 : L[k + 1]? = some c := getElem?_of_drop hdrop
    have h2 : L.drop (k + 2) = run ++ rest := drop_succ_of_drop hdrop
    have hpeek : BufReadIter.peek ⟨inp, L, k, ln⟩ = some c := by
      simpa [BufReadIter.peek] using h1
    have halnum : c.isAlphanum = true := hall c (List.mem_cons_self c run)
    have := ih rest inp L (k + 1) fuel ln (command ++ [c]) h2
      (fun x hx => hall x (List.mem_cons_of_mem _ hx)) hrest (by
        simpa using hfuel)
    have harith : k + 1 + run.length = k + (c :: run).length := by
      simp only [List.length_cons]
      omega
    simp only [identLoop, hpeek, halnum, if_true,
      BufReadIter.next_within inp ln h1, this, Prod.mk.injEq]
    exact ⟨by simp, by rw [harith]⟩

end Tokens

/-! ### The `verbatim` loop -/

/-- The spec's encoding of a verbatim body: every occurrence of the delimiter
inside the intended content is doubled in the source text. -/
def escapeDelim (d : Char) : List Char → List Char
  | [] => []
  | c :: cs =>
      if c = d then d :: d :: escapeDelim d cs else c :: escapeDelim d cs

theorem escapeDelim_nil (d : Char) : escapeDelim d [] = [] := rfl

theorem escapeDelim_cons_self (d : Char) (cs : List Char) :
    escapeDelim d (d :: cs) = d :: d :: escapeDelim d cs := by
  simp [escapeDelim]

theorem escapeDelim_cons_ne (d c : Char) (cs : List Char) (h : c ≠ d) :
    escapeDelim d (c :: cs) = c :: escapeDelim d cs := by
  simp [escapeDelim, h]

namespace Tokens

/-- `verbatimLoop` on a doubled-delimiter encoding followed by a closing
delimiter (itself followed by end of line or a different character) collapses
the doubled delimiters and stops right after the closing delimiter. -/
theorem verbatimLoop_closed (d : Char) (content : List Char) :
    ∀ (rest : List Char) (inp : List RLine) (L : List Char)
      (k fuel ln sl sc : Nat) (verb : List Char),
      L.drop (k + 1) = escapeDelim d content ++ d :: rest →
      (∀ c, rest.head? = some c → c ≠ d) →
      content.length < fuel →
      verbatimLoop fuel d sl sc verb ⟨inp, L, k, ln⟩ =
        .ok (verb ++ content,
          ⟨inp, L, k + (escapeDelim d content).length + 1, ln⟩) := by
  induction content with
  | nil =>
    intro rest inp L k fuel ln sl sc verb hdrop hrest hfuel
    obtain ⟨fuel, rfl⟩ : ∃ f, fuel = f + 1 := ⟨fuel - 1, by omega⟩
    rw [escapeDelim_nil, List.nil_append] at hdrop
    have h1 : L[k + 1]? = some d := getElem?_of_drop hdrop
    have h2 : L.drop (k + 2) = rest := drop_succ_of_drop hdrop
    have hpeek : BufReadIter.peek ⟨inp, L, k + 1, ln⟩ = rest.head? := by
      simp only [BufReadIter.peek, ← List.head?_drop, h2]
    cases hr : rest.head? with
    | none =>
      simp [verbatimLoop, BufReadIter.next_within inp ln h1, hpeek, hr,
        escapeDelim_nil]
    | some c =>
      simp [verbatimLoop, BufReadIter.next_within inp ln h1, hpeek, hr,
        hrest c hr, escapeDelim_nil]
  | cons c cs ih =>
    intro rest inp L k fuel ln sl sc verb hdrop hrest hfuel
    obtain ⟨fuel, rfl⟩ : ∃ f, fuel = f + 1 := ⟨fuel - 1, by omega⟩
    by_cases hc : c = d
    · subst hc
      rw [escapeDelim_cons_self, List.cons_append, List.cons_append] at hdrop
      have h1 : L[k + 1]? = some c := getElem?_of_drop hdrop
      have hdrop2 := drop_succ_of_drop hdrop
      have h3 : L[k + 2]? = some c := getElem?_of_drop hdrop2
      have h4 : L.drop (k + 3) = escapeDelim c cs ++ c :: rest :=
        drop_succ_of_drop hdrop2
      have hpeek : BufReadIter.peek ⟨inp, L, k + 1, ln⟩ = some c := by
        simpa [BufReadIter.peek] using h3
      have hrec := ih rest inp L (k + 2) fuel ln sl sc (verb ++ [c]) h4 hrest
        (by simpa using hfuel)
      rw [List.append_cons, escapeDelim_cons_self]
      have harith : k + (c :: c :: escapeDelim c cs).length + 1 =
          k + 2 + (escapeDelim c cs).length + 1 := by
        simp only [List.length_cons]
        omega
      rw [harith]
      simp only [verbatimLoop, BufReadIter.next_within inp ln h1, if_pos rfl,
        if_true, hpeek, BufReadIter.next_within inp ln h3, hrec]
    · rw [escapeDelim_cons_ne d c cs hc, List.cons_append] at hdrop
      have h1 : L[k + 1]? = some c := getElem?_of_drop hdrop
      have h2 : L.drop (k + 2) = escapeDelim d cs ++ d :: rest :=
        drop_succ_of_drop hdrop
      have hrec := ih rest inp L (k + 1) fuel ln sl sc (verb ++ [c]) h2 hrest
        (by simpa using hfuel)
      rw [List.append_cons, escapeDelim_cons_ne d c cs hc]
      have harith : k + (c :: escapeDelim d cs).length + 1 =
          k + 1 + (escapeDelim d cs).length + 1 := by
        simp only [List.length_cons]
        omega
      rw [harith]
      simp only [verbatimLoop, BufReadIter.next_within inp ln h1, hc, if_false,
        hrec]

/-- `verbatimLoop` on a doubled-delimiter encoding with no closing delimiter
before end of stream fails with `UnclosedVerbatim` at the recorded start
position. -/
theorem verbatimLoop_unclosed (d : Char) (content : List Char) :
    ∀ (L : List Char) (k fuel ln sl sc : Nat) (verb : List Char),
      L.drop (k + 1) = escapeDelim d content →
      content.length < fuel →
      verbatimLoop fuel d sl sc verb ⟨[], L, k, ln⟩ =
        .error (.UnclosedVerbatim sl sc) := by
  induction content with
  | nil =>
    intro L k fuel ln sl sc verb hdrop hfuel
    obtain ⟨fuel, rfl⟩ : ∃ f, fuel = f + 1 := ⟨fuel - 1, by omega⟩
    rw [escapeDelim_nil] at hdrop
    have h1 : L[k + 1]? = none := by
      rw [← List.head?_drop, hdrop]
      rfl
    simp [verbatimLoop, BufReadIter.next_eof ln h1]
  | cons c cs ih =>
    intro L k fuel ln sl sc verb hdrop hfuel
    obtain ⟨fuel, rfl⟩ : ∃ f, fuel = f + 1 := ⟨fuel - 1, by omega⟩
    by_cases hc : c = d
    · subst hc
      rw [escapeDelim_cons_self] at hdrop
      have h1 : L[k + 1]? = some c := getElem?_of_drop hdrop
      have hdrop2 := drop_succ_of_drop hdrop
      have h3 : L[k + 2]? = some c := getElem?_of_drop hdrop2
      have h4 : L.drop (k + 3) = escapeDelim c cs := drop_succ_of_drop hdrop2
      have hpeek : BufReadIter.peek ⟨[], L, k + 1, ln⟩ = some c := by
        simpa [BufReadIter.peek] using h3
      have hrec := ih L (k + 2) fuel ln sl sc (verb ++ [c]) h4
        (by simpa using hfuel)
      simp only [verbatimLoop, BufReadIter.next_within [] ln h1, if_pos rfl,
        if_true, hpeek, BufReadIter.next_within [] ln h3, hrec]
    · rw [escapeDelim_cons_ne d c cs hc] at hdrop
      have h1 : L[k + 1]? = some c := getElem?_of_drop hdrop
      have h2 : L.drop (k + 2) = escapeDelim d cs := drop_succ_of_drop hdrop
      have hrec := ih L (k + 1) fuel ln sl sc (verb ++ [c]) h2
        (by simpa using hfuel)
      simp only [verbatimLoop, BufReadIter.next_within [] ln h1, hc, if_false,
        hrec]

end Tokens

theorem escapeDelim_length (d : Char) (content : List Char) :
    content.length ≤ (escapeDelim d content).length := by
  induction content with
  | nil => simp [escapeDelim_nil]
  | cons c cs ih =>
    by_cases hc : c = d
    · subst hc
      rw [escapeDelim_cons_self]
      simp only [List.length_cons]
      omega
    · rw [escapeDelim_cons_ne d c cs hc]
      simp only [List.length_cons]
      omega

/-! ### The token-collection loop, one step at a time -/

namespace Tokens

theorem tokensLoop_step (fuel : Nat) (acc : List Token) (s s' : BufReadIter)
    (t : Token) (hf : 0 < fuel) (h : next_res s = .ok (some t, s')) :
    tokensLoop fuel acc s = tokensLoop (fuel - 1) (acc ++ [t]) s' := by
  obtain ⟨f, rfl⟩ : ∃ f, fuel = f + 1 := ⟨fuel - 1, by omega⟩
  simp [tokensLoop, h]

theorem tokensLoop_err (fuel : Nat) (acc : List Token) (s : BufReadIter)
    (e : ErrorKind) (hf : 0 < fuel) (h : next_res s = .error e) :
    tokensLoop fuel acc s = .error e := by
  obtain ⟨f, rfl⟩ : ∃ f, fuel = f + 1 := ⟨fuel - 1, by omega⟩
  simp [tokensLoop, h]

/-- At end of line with an exhausted source, the next `next_res` call reports
end of tokens, so the collection loop stops and returns the accumulator. -/
theorem tokensLoop_last (fuel : Nat) (acc : List Token) (L : List Char)
    (k ln : Nat) (h : L.length ≤ k + 1) (hf : 0 < fuel) :
    tokensLoop fuel acc ⟨[], L, k, ln⟩ = .ok acc := by
  obtain ⟨f, rfl⟩ : ∃ f, fuel = f + 1 := ⟨fuel - 1, by omega⟩
  have h1 : L[k + 1]? = none := by simp [List.getElem?_eq_none h]
  simp [tokensLoop, next_res, BufReadIter.next_eof ln h1]

/-- Reading `\verbatim` and a (non-alphanumeric) delimiter from the start of
the stream: `next_res` records line 1, column 9 — the position reached on
consuming the delimiter — and dispatches to `verbatim`. -/
theorem next_res_verbatim_prefix (d : Char) (tail : List Char)
    (hd : d.isAlphanum = false) :
    next_res (BufReadIter.new [.ok ('\\' :: 'v' :: 'e' :: 'r' :: 'b' :: 'a' ::
        't' :: 'i' :: 'm' :: d :: tail)]) =
      match verbatim d 1 9 ⟨[], '\\' :: 'v' :: 'e' :: 'r' :: 'b' :: 'a' ::
          't' :: 'i' :: 'm' :: d :: tail, 9, 1⟩ with
      | .error e => .error e
      | .ok (v, s) => .ok (some (Token.Verbatim v), s) := by
  have h0 : BufReadIter.next (BufReadIter.new [.ok ('\\' :: 'v' :: 'e' :: 'r' ::
      'b' :: 'a' :: 't' :: 'i' :: 'm' :: d :: tail)]) =
      .ok (some '\\', ⟨[], '\\' :: 'v' :: 'e' :: 'r' :: 'b' :: 'a' :: 't' ::
        'i' :: 'm' :: d :: tail, 0, 1⟩) := by
    have h := BufReadIter.next_refill (L := []) (M := '\\' :: 'v' :: 'e' ::
      'r' :: 'b' :: 'a' :: 't' :: 'i' :: 'm' :: d :: tail) (k := 0) [] 0
      (by simp)
    simpa [BufReadIter.new] using h
  have h1 : BufReadIter.expect_next (⟨[], '\\' :: 'v' :: 'e' :: 'r' :: 'b' ::
      'a' :: 't' :: 'i' :: 'm' :: d :: tail, 0, 1⟩ : BufReadIter) =
      .ok ('v', ⟨[], '\\' :: 'v' :: 'e' :: 'r' :: 'b' :: 'a' :: 't' :: 'i' ::
        'm' :: d :: tail, 1, 1⟩) :=
    BufReadIter.expect_next_within [] 1 (by simp)
  have hident : ident 'v' (⟨[], '\\' :: 'v' :: 'e' :: 'r' :: 'b' :: 'a' ::
      't' :: 'i' :: 'm' :: d :: tail, 1, 1⟩ : BufReadIter) =
      (['v', 'e', 'r', 'b', 'a', 't', 'i', 'm'],
        ⟨[], '\\' :: 'v' :: 'e' :: 'r' :: 'b' :: 'a' :: 't' :: 'i' :: 'm' ::
          d :: tail, 8, 1⟩) := by
    have h := identLoop_spec ['e', 'r', 'b', 'a', 't', 'i', 'm'] (d :: tail) []
      ('\\' :: 'v' :: 'e' :: 'r' :: 'b' :: 'a' :: 't' :: 'i' :: 'm' :: d ::
        tail) 1
      ('\\' :: 'v' :: 'e' :: 'r' :: 'b' :: 'a' :: 't' :: 'i' :: 'm' :: d ::
        tail).length 1 ['v'] rfl (by decide)
      (fun c hc => by
        rw [List.head?_cons] at hc
        injection hc with h
        rw [← h]
        exact hd)
      (by simp only [List.length_cons, List.length_nil]; omega)
    simpa [ident] using h
  have h2 : BufReadIter.expect_next (⟨[], '\\' :: 'v' :: 'e' :: 'r' :: 'b' ::
      'a' :: 't' :: 'i' :: 'm' :: d :: tail, 8, 1⟩ : BufReadIter) =
      .ok (d, ⟨[], '\\' :: 'v' :: 'e' :: 'r' :: 'b' :: 'a' :: 't' :: 'i' ::
        'm' :: d :: tail, 9, 1⟩) :=
    BufReadIter.expect_next_within [] 1 (by simp)
  have hveq : (['v', 'e', 'r', 'b', 'a', 't', 'i', 'm'] : List Char) =
      "verbatim".toList := by decide
  simp only [next_res, h0, h1, hident, h2, hveq]
  simp

end Tokens

/-! ### Claim C1 -/

/-- C1: for every delimiter `d` (any non-alphanumeric character, else it would
be absorbed into the command identifier) and every intended content, the input
`\verbatim` + `d` + (content with each occurrence of `d` doubled) + `d`
tokenizes to exactly one `Verbatim` token whose content is the text strictly
between the two delimiter occurrences with doubled delimiters collapsed; the
trailing `d` is non-doubled because the input ends right after it. -/
theorem claim_C1_verbatim_span (d : Char) (content : List Char)
    (hd : d.isAlphanum = false) :
    Tokens.tokenize [.ok ('\\' :: 'v' :: 'e' :: 'r' :: 'b' :: 'a' :: 't' ::
      'i' :: 'm' :: d :: (escapeDelim d content ++ [d]))] =
      .ok [.Verbatim content] := by
  have hlen : ('\\' :: 'v' :: 'e' :: 'r' :: 'b' :: 'a' :: 't' :: 'i' :: 'm' ::
      d :: (escapeDelim d content ++ [d])).length =
      (escapeDelim d content).length + 11 := by
    simp only [List.length_cons, List.length_append, List.length_nil]
  have hesc := escapeDelim_length d content
  have hfuel : content.length < remaining (⟨[], '\\' :: 'v' :: 'e' :: 'r' ::
      'b' :: 'a' :: 't' :: 'i' :: 'm' :: d :: (escapeDelim d content ++ [d]),
      9, 1⟩ : BufReadIter) := by
    simp only [remaining, hlen, List.map_nil, List.sum_nil, List.length_nil]
    omega
  have hverb : Tokens.verbatim d 1 9 ⟨[], '\\' :: 'v' :: 'e' :: 'r' :: 'b' ::
      'a' :: 't' :: 'i' :: 'm' :: d :: (escapeDelim d content ++ [d]), 9, 1⟩ =
      .ok (content, ⟨[], '\\' :: 'v' :: 'e' :: 'r' :: 'b' :: 'a' :: 't' ::
        'i' :: 'm' :: d :: (escapeDelim d content ++ [d]),
        9 + (escapeDelim d content).length + 1, 1⟩) := by
    have h := Tokens.verbatimLoop_closed d content [] []
      ('\\' :: 'v' :: 'e' :: 'r' :: 'b' :: 'a' :: 't' :: 'i' :: 'm' :: d ::
        (escapeDelim d content ++ [d])) 9
      (remaining ⟨[], '\\' :: 'v' :: 'e' :: 'r' :: 'b' :: 'a' :: 't' :: 'i' ::
        'm' :: d :: (escapeDelim d content ++ [d]), 9, 1⟩) 1 1 9 [] rfl
      (fun c hc => by simp at hc) hfuel
    simpa [Tokens.verbatim] using h
  have hnr : Tokens.next_res (BufReadIter.new [.ok ('\\' :: 'v' :: 'e' :: 'r' ::
      'b' :: 'a' :: 't' :: 'i' :: 'm' :: d :: (escapeDelim d content ++ [d]))]) =
      .ok (some (Token.Verbatim content), ⟨[], '\\' :: 'v' :: 'e' :: 'r' ::
        'b' :: 'a' :: 't' :: 'i' :: 'm' :: d :: (escapeDelim d content ++ [d]),
        9 + (escapeDelim d content).length + 1, 1⟩) := by
    rw [Tokens.next_res_verbatim_prefix d (escapeDelim d content ++ [d]) hd,
      hverb]
  have hrem : remaining (BufReadIter.new [.ok ('\\' :: 'v' :: 'e' :: 'r' ::
      'b' :: 'a' :: 't' :: 'i' :: 'm' :: d ::
      (escapeDelim d content ++ [d]))]) =
      (escapeDelim d content).length + 13 := by
    simp only [remaining, BufReadIter.new, okLen, List.map_cons, List.map_nil,
      List.sum_cons, List.sum_nil, List.length_nil, List.length_cons, hlen]
    omega
  unfold Tokens.tokenize
  rw [Tokens.tokensLoop_step _ _ _ _ _ (by rw [hrem]; omega) hnr,
    Tokens.tokensLoop_last _ _ _ _ _ (by rw [hlen]; omega) (by rw [hrem]; omega)]
  simp

/-- Witness for C1 at the spec's two examples: `\verbatim!a\b!` yields
`[Verbatim("a\b")]` and `\verbatim!a!!b!` yields `[Verbatim("a!b")]`
(note `escapeDelim '!' ['a', '!', 'b'] = ['a', '!', '!', 'b']`). -/
theorem claim_C1_verbatim_span_witness :
    Tokens.tokenize [.ok ('\\' :: 'v' :: 'e' :: 'r' :: 'b' :: 'a' :: 't' ::
        'i' :: 'm' :: '!' :: (escapeDelim '!' ['a', '\\', 'b'] ++ ['!']))] =
      .ok [.Verbatim ['a', '\\', 'b']] ∧
    Tokens.tokenize [.ok ('\\' :: 'v' :: 'e' :: 'r' :: 'b' :: 'a' :: 't' ::
        'i' :: 'm' :: '!' :: (escapeDelim '!' ['a', '!', 'b'] ++ ['!']))] =
      .ok [.Verbatim ['a', '!', 'b']] :=
  ⟨claim_C1_verbatim_span '!' ['a', '\\', 'b'] (by decide),
   claim_C1_verbatim_span '!' ['a', '!', 'b'] (by decide)⟩

/-! ### Claim C2 -/

/-- C2: a verbatim span opened by `\verbatim` and a delimiter that is never
closed (the rest of the stream is content, with any delimiter occurrences
doubled, so no closing delimiter is found) fails with `UnclosedVerbatim`
carrying the recorded start position of the span — line 1, column 9, the
position on consuming the opening delimiter — independent of where the
stream ends. -/
theorem claim_C2_unclosed_verbatim (d : Char) (content : List Char)
    (hd : d.isAlphanum = false) :
    Tokens.tokenize [.ok ('\\' :: 'v' :: 'e' :: 'r' :: 'b' :: 'a' :: 't' ::
      'i' :: 'm' :: d :: escapeDelim d content)] =
      .error (.UnclosedVerbatim 1 9) := by
  have hlen : ('\\' :: 'v' :: 'e' :: 'r' :: 'b' :: 'a' :: 't' :: 'i' :: 'm' ::
      d :: escapeDelim d content).length =
      (escapeDelim d content).length + 10 := by
    simp only [List.length_cons]
  have hesc := escapeDelim_length d content
  have hfuel : content.length < remaining (⟨[], '\\' :: 'v' :: 'e' :: 'r' ::
      'b' :: 'a' :: 't' :: 'i' :: 'm' :: d :: escapeDelim d content,
      9, 1⟩ : BufReadIter) := by
    simp only [remaining, hlen, List.map_nil, List.sum_nil, List.length_nil]
    omega
  have hverb : Tokens.verbatim d 1 9 ⟨[], '\\' :: 'v' :: 'e' :: 'r' :: 'b' ::
      'a' :: 't' :: 'i' :: 'm' :: d :: escapeDelim d content, 9, 1⟩ =
      .error (.UnclosedVerbatim 1 9) := by
    have h := Tokens.verbatimLoop_unclosed d content
      ('\\' :: 'v' :: 'e' :: 'r' :: 'b' :: 'a' :: 't' :: 'i' :: 'm' :: d ::
        escapeDelim d content) 9
      (remaining ⟨[], '\\' :: 'v' :: 'e' :: 'r' :: 'b' :: 'a' :: 't' :: 'i' ::
        'm' :: d :: escapeDelim d content, 9, 1⟩) 1 1 9 [] rfl hfuel
    simpa [Tokens.verbatim] using h
  have hnr : Tokens.next_res (BufReadIter.new [.ok ('\\' :: 'v' :: 'e' :: 'r' ::
      'b' :: 'a' :: 't' :: 'i' :: 'm' :: d :: escapeDelim d content)]) =
      .error (.UnclosedVerbatim 1 9) := by
    rw [Tokens.next_res_verbatim_prefix d (escapeDelim d content) hd, hverb]
  unfold Tokens.tokenize
  exact Tokens.tokensLoop_err _ _ _ _ (by simp only [remaining]; omega) hnr

/-- Witness for C2 at the spec's example: `\verbatim!a\b` with no closing `!`
fails with `UnclosedVerbatim(1, 9)`. -/
theorem claim_C2_unclosed_verbatim_witness :
    Tokens.tokenize [.ok ('\\' :: 'v' :: 'e' :: 'r' :: 'b' :: 'a' :: 't' ::
        'i' :: 'm' :: '!' :: escapeDelim '!' ['a', '\\', 'b'])] =
      .error (.UnclosedVerbatim 1 9) :=
  claim_C2_unclosed_verbatim '!' ['a', '\\', 'b'] (by decide)

/-! ### Claim C3 -/

theorem alnum_not_special (c : Char) (h : c.isAlphanum = true) :
    c ≠ '\\' ∧ c ≠ '{' ∧ c ≠ '}' := by
  refine ⟨?_, ?_, ?_⟩ <;> intro he <;> subst he <;> exact absurd h (by decide)

/-- C3: a backslash followed by a maximal alphanumeric run `name` (maximal:
what follows, if anything, is not alphanumeric) with `name ≠ "verbatim"`
yields one `Command` token containing the full run, and the tokenizer state
stops at the last character of the run, so the following character is still
unconsumed (the unread part of the line is exactly `rest`). -/
theorem claim_C3_command_identifier (name rest : List Char)
    (hne : name ≠ []) (halnum : ∀ c ∈ name, c.isAlphanum = true)
    (hnv : name ≠ "verbatim".toList)
    (hrest : ∀ c, rest.head? = some c → c.isAlphanum = false) :
    Tokens.next_res (BufReadIter.new [.ok ('\\' :: name ++ rest)]) =
      .ok (some (.Command name),
        ⟨[], '\\' :: name ++ rest, name.length, 1⟩) ∧
    ('\\' :: name ++ rest).drop (name.length + 1) = rest := by
  obtain ⟨n0, name', rfl⟩ : ∃ n0 name', name = n0 :: name' := by
    cases name with
    | nil => exact absurd rfl hne
    | cons a l => exact ⟨a, l, rfl⟩
  have h0 : BufReadIter.next (BufReadIter.new
      [.ok ('\\' :: (n0 :: name') ++ rest)]) =
      .ok (some '\\', ⟨[], '\\' :: (n0 :: name') ++ rest, 0, 1⟩) := by
    have h := BufReadIter.next_refill (L := [])
      (M := '\\' :: (n0 :: name') ++ rest) (k := 0) [] 0 (by simp)
    simpa [BufReadIter.new] using h
  have h1 : BufReadIter.expect_next
      (⟨[], '\\' :: (n0 :: name') ++ rest, 0, 1⟩ : BufReadIter) =
      .ok (n0, ⟨[], '\\' :: (n0 :: name') ++ rest, 1, 1⟩) :=
    BufReadIter.expect_next_within [] 1 (by simp)
  have ha0 : n0.isAlphanum = true := halnum n0 (List.mem_cons_self n0 name')
  obtain ⟨hs1, hs2, hs3⟩ := alnum_not_special n0 ha0
  have hident : Tokens.ident n0
      (⟨[], '\\' :: (n0 :: name') ++ rest, 1, 1⟩ : BufReadIter) =
      (n0 :: name',
        ⟨[], '\\' :: (n0 :: name') ++ rest, 1 + name'.length, 1⟩) := by
    have h := Tokens.identLoop_spec name' rest []
      ('\\' :: (n0 :: name') ++ rest) 1 ('\\' :: (n0 :: name') ++ rest).length
      1 [n0] rfl (fun c hc => halnum c (List.mem_cons_of_mem n0 hc)) hrest
      (by simp only [List.cons_append, List.length_cons, List.length_append]
          omega)
    simpa [Tokens.ident] using h
  constructor
  · have hcol : 1 + name'.length = (n0 :: name').length := by
      simp only [List.length_cons]
      omega
    simp only [Tokens.next_res, h0, h1, hident, if_neg hnv, hcol, hs1, hs2,
      hs3, ha0]
    simp
  · have h := List.drop_left ('\\' :: (n0 :: name')) rest
    simp only [List.length_cons] at h
    exact h

/-- Witness for C3 at the spec's example: `\abc` yields `[Command("abc")]`
(here seen one `next_res` call in: the token is produced with nothing further
consumed). -/
theorem claim_C3_command_identifier_witness :
    Tokens.next_res (BufReadIter.new [.ok ('\\' :: ['a', 'b', 'c'] ++ [])]) =
      .ok (some (.Command ['a', 'b', 'c']),
        ⟨[], '\\' :: ['a', 'b', 'c'] ++ [], 3, 1⟩) ∧
    ('\\' :: ['a', 'b', 'c'] ++ []).drop 4 = [] :=
  claim_C3_command_identifier ['a', 'b', 'c'] [] (by decide) (by decide)
    (by decide) (fun c hc => by simp at hc)

/-! ### Claim C5 -/

/-- C5: after a backslash, the characters `\`, `{`, `}` are self-escapes
yielding `Char` of that literal (not a command); any other non-alphanumeric
character yields a `Command` whose name is that single character. -/
theorem claim_C5_escape_or_single_command (c : Char) (rest : List Char) :
    ((c = '\\' ∨ c = '{' ∨ c = '}') →
      Tokens.next_res (BufReadIter.new [.ok ('\\' :: c :: rest)]) =
        .ok (some (.Char c), ⟨[], '\\' :: c :: rest, 1, 1⟩)) ∧
    (c.isAlphanum = false → c ≠ '\\' → c ≠ '{' → c ≠ '}' →
      Tokens.next_res (BufReadIter.new [.ok ('\\' :: c :: rest)]) =
        .ok (some (.Command [c]), ⟨[], '\\' :: c :: rest, 1, 1⟩)) := by
  have h0 : BufReadIter.next (BufReadIter.new [.ok ('\\' :: c :: rest)]) =
      .ok (some '\\', ⟨[], '\\' :: c :: rest, 0, 1⟩) := by
    have h := BufReadIter.next_refill (L := []) (M := '\\' :: c :: rest)
      (k := 0) [] 0 (by simp)
    simpa [BufReadIter.new] using h
  have h1 : BufReadIter.expect_next
      (⟨[], '\\' :: c :: rest, 0, 1⟩ : BufReadIter) =
      .ok (c, ⟨[], '\\' :: c :: rest, 1, 1⟩) :=
    BufReadIter.expect_next_within [] 1 (by simp)
  constructor
  · rintro (rfl | rfl | rfl) <;> simp [Tokens.next_res, h0, h1]
  · intro ha hc1 hc2 hc3
    simp [Tokens.next_res, h0, h1, ha, hc1, hc2, hc3]

/-- Witness for C5: `\{` yields `Char('{')` (self-escape) and `\!` yields
`Command("!")`. -/
theorem claim_C5_escape_or_single_command_witness :
    Tokens.next_res (BufReadIter.new [.ok ('\\' :: '{' :: [])]) =
      .ok (some (.Char '{'), ⟨[], '\\' :: '{' :: [], 1, 1⟩) ∧
    Tokens.next_res (BufReadIter.new [.ok ('\\' :: '!' :: [])]) =
      .ok (some (.Command ['!']), ⟨[], '\\' :: '!' :: [], 1, 1⟩) :=
  ⟨(claim_C5_escape_or_single_command '{' []).1 (Or.inr (Or.inl rfl)),
   (claim_C5_escape_or_single_command '!' []).2 (by decide) (by decide)
     (by decide) (by decide)⟩

/-! ### Claim C6 -/

/-- A failing `next` reports an I/O-derived kind, never `EndOfInput`. -/
theorem next_error_not_eoi (s : BufReadIter) (e : ErrorKind)
    (h : BufReadIter.next s = .error e) : e ≠ .EndOfInput := by
  obtain ⟨inp, L, k, ln⟩ := s
  cases hg : L[k + 1]? with
  | some c =>
    rw [BufReadIter.next_within inp ln hg] at h
    exact absurd h (by simp)
  | none =>
    cases inp with
    | nil =>
      rw [BufReadIter.next_eof ln hg] at h
      exact absurd h (by simp)
    | cons r rest =>
      cases r with
      | ok M =>
        rw [BufReadIter.next_refill rest ln hg] at h
        exact absurd h (by simp)
      | err io =>
        rw [BufReadIter.next_err rest ln hg] at h
        injection h with h'
        rw [← h']
        cases io <;> simp [ErrorKind.from_io]

/-- C6: a stream that ends right after `\`, or right after `\verbatim` before
a delimiter is read, fails with `EndOfInput` (which carries no position); and
in general `expect_next` returns the `EndOfInput` kind exactly when `next`
would have returned end of stream. -/
theorem claim_C6_end_of_input :
    Tokens.tokenize [.ok ['\\']] = .error .EndOfInput ∧
    Tokens.tokenize [.ok ['\\', 'v', 'e', 'r', 'b', 'a', 't', 'i', 'm']] =
      .error .EndOfInput ∧
    ∀ s : BufReadIter,
      (BufReadIter.expect_next s = .error .EndOfInput ↔
        ∃ s', BufReadIter.next s = .ok (none, s')) := by
  refine ⟨by decide, by decide, fun s => ⟨?_, ?_⟩⟩
  · intro h
    rw [BufReadIter.expect_next] at h
    cases hn : BufReadIter.next s with
    | error e =>
      rw [hn] at h
      injection h with h'
      exact absurd h' (next_error_not_eoi s e hn)
    | ok p =>
      obtain ⟨oc, s'⟩ := p
      cases oc with
      | some c =>
        rw [hn] at h
        exact absurd h (by simp)
      | none => exact ⟨s', rfl⟩
  · rintro ⟨s', hs'⟩
    rw [BufReadIter.expect_next, hs']

/-- Witness for C6: the `expect_next`/`next` equivalence applied at the
initial state of an empty source. -/
theorem claim_C6_end_of_input_witness :
    BufReadIter.expect_next ⟨[], [], 0, 0⟩ = .error .EndOfInput ↔
      ∃ s', BufReadIter.next ⟨[], [], 0, 0⟩ = .ok (none, s') :=
  claim_C6_end_of_input.2.2 ⟨[], [], 0, 0⟩

/-! ### Claim C7 -/

/-- C7: `next` (the Line Buffer's advance) returns `None` only when the
current line is exhausted and the refill produced no further content (which,
for a line-readable source, happens exactly at end of stream: the source list
is empty or its next read returns zero characters); whenever the current line
is exhausted but a nonempty line remains, `next` refills — resetting the
cursor to 0 and incrementing the line counter — and returns the first
character of the newly read line. -/
theorem claim_C7_advance_refill (s : BufReadIter) :
    (∀ s', BufReadIter.next s = .ok (none, s') →
      s.vec_buf.length ≤ s.column + 1 ∧ s'.vec_buf = [] ∧
        (s.input = [] ∨ ∃ rest, s.input = .ok [] :: rest)) ∧
    (∀ L rest, s.vec_buf.length ≤ s.column + 1 → s.input = .ok L :: rest →
      L ≠ [] → ∃ c, L.head? = some c ∧
        BufReadIter.next s = .ok (some c, ⟨rest, L, 0, s.line + 1⟩)) := by
  obtain ⟨inp, L0, k, ln⟩ := s
  constructor
  · intro s' h
    cases hg : L0[k + 1]? with
    | some c =>
      rw [BufReadIter.next_within inp ln hg] at h
      exact absurd h (by simp)
    | none =>
      have hlen : L0.length ≤ k + 1 := by
        by_contra hlt
        push_neg at hlt
        rw [List.getElem?_eq_getElem hlt] at hg
        exact absurd hg (by simp)
      refine ⟨hlen, ?_, ?_⟩
      · cases inp with
        | nil =>
          rw [BufReadIter.next_eof ln hg] at h
          simp only [Except.ok.injEq, Prod.mk.injEq] at h
          rw [← h.2]
        | cons r rest =>
          cases r with
          | ok M =>
            rw [BufReadIter.next_refill rest ln hg] at h
            simp only [Except.ok.injEq, Prod.mk.injEq] at h
            obtain ⟨hM, rfl⟩ := h
            cases M with
            | nil => rfl
            | cons a m => exact absurd hM.symm (by simp)
          | err io =>
            rw [BufReadIter.next_err rest ln hg] at h
            exact absurd h (by simp)
      · cases inp with
        | nil => exact Or.inl rfl
        | cons r rest =>
          cases r with
          | ok M =>
            rw [BufReadIter.next_refill rest ln hg] at h
            simp only [Except.ok.injEq, Prod.mk.injEq] at h
            obtain ⟨hM, rfl⟩ := h
            cases M with
            | nil => exact Or.inr ⟨rest, rfl⟩
            | cons a m => exact absurd hM.symm (by simp)
          | err io =>
            rw [BufReadIter.next_err rest ln hg] at h
            exact absurd h (by simp)
  · intro L rest hlen hinp hne
    subst hinp
    have hg : L0[k + 1]? = none := List.getElem?_eq_none hlen
    obtain ⟨c, M', rfl⟩ : ∃ c M', L = c :: M' := by
      cases L with
      | nil => exact absurd rfl hne
      | cons a m => exact ⟨a, m, rfl⟩
    refine ⟨c, by simp, ?_⟩
    rw [BufReadIter.next_refill rest ln hg]
    simp

/-- Witness for C7: a state whose one-character line is exhausted and whose
source still holds the line `"a"`; `next` refills and returns `'a'` with the
cursor reset and the line counter advanced. -/
theorem claim_C7_advance_refill_witness :
    ∃ c, (['a'] : List Char).head? = some c ∧
      BufReadIter.next ⟨[.ok ['a']], ['x'], 0, 1⟩ =
        .ok (some c,
          ⟨[], ['a'], 0, (⟨[.ok ['a']], ['x'], 0, 1⟩ : BufReadIter).line + 1⟩) :=
  (claim_C7_advance_refill ⟨[.ok ['a']], ['x'], 0, 1⟩).2 ['a'] [] (by decide)
    rfl (by decide)

/-! ### Claim C8 -/

/-- C8: `peek` is a pure observation — in this embedding it is a function of
the state with no state output at all, mirroring that the Rust method mutates
nothing — whose value depends only on the buffered line and cursor (not on
the remaining source or the line counter), and at end of the current line it
returns `none` even when more lines remain, so it can never trigger a
refill or cross a line boundary. -/
theorem claim_C8_peek_frame (s : BufReadIter) (inp : List RLine) (ln : Nat) :
    BufReadIter.peek { s with input := inp, line := ln } =
      BufReadIter.peek s ∧
    (s.vec_buf.length ≤ s.column + 1 → BufReadIter.peek s = none) := by
  refine ⟨rfl, fun h => ?_⟩
  rw [BufReadIter.peek]
  exact List.getElem?_eq_none h

/-- Witness for C8: at end of the current line, `peek` is `none` even though
a further line (`"y"`) remains in the source. -/
theorem claim_C8_peek_frame_witness :
    BufReadIter.peek ⟨[.ok ['y']], ['x'], 0, 1⟩ = none :=
  (claim_C8_peek_frame ⟨[.ok ['y']], ['x'], 0, 1⟩ [] 0).2 (by decide)

/-! ### Claim C9 -/

/-- C9: `from_io` maps an `InvalidData` read failure to the invalid-encoding
kind `Unicode(line)` and every other read failure to `Io(line)`; a failing
refill reports the line number current at the failing read — the counter
already incremented for the line being read (`s.line + 1`); and a first line
of invalid bytes makes tokenizing fail with `Unicode 1`. -/
theorem claim_C9_read_errors (s : BufReadIter) (e : IoErrKind)
    (rest : List RLine) (n : Nat) :
    ErrorKind.from_io .invalidData n = .Unicode n ∧
    ErrorKind.from_io .other n = .Io n ∧
    (s.input = .err e :: rest →
      BufReadIter.fill_buffer s = .error (ErrorKind.from_io e (s.line + 1))) ∧
    Tokens.tokenize [.err .invalidData] = .error (.Unicode 1) := by
  refine ⟨rfl, rfl, fun h => ?_, by decide⟩
  obtain ⟨inp, L, k, ln⟩ := s
  simp only at h
  subst h
  rfl

/-- Witness for C9: a refill whose read fails with a non-`InvalidData` error
on the second line reports `Io` with the already-incremented line counter. -/
theorem claim_C9_read_errors_witness :
    BufReadIter.fill_buffer ⟨[.err .other], [], 0, 1⟩ =
      .error (ErrorKind.from_io .other
        ((⟨[.err .other], [], 0, 1⟩ : BufReadIter).line + 1)) :=
  (claim_C9_read_errors ⟨[.err .other], [], 0, 1⟩ .other [] 0).2.2.1 rfl

/-! ### The character stream still to be consumed

To state the per-character and round-trip claims (C4, C10) over arbitrary
inputs, we track the flat sequence of characters the iterator has not yet
delivered.  A `goodInput` source is one a real `BufRead` over valid text
produces: every `read_line` before end of stream succeeds and returns at
least one character. -/

def flatInput : List RLine → List Char
  | [] => []
  | .ok cs :: rest => cs ++ flatInput rest
  | .err _ :: rest => flatInput rest

def flatRest (s : BufReadIter) : List Char :=
  s.vec_buf.drop (s.column + 1) ++ flatInput s.input

def goodInput (inp : List RLine) : Prop :=
  ∀ r ∈ inp, ∃ cs, r = RLine.ok cs ∧ cs ≠ []

theorem flatInput_map_ok (lines : List (List Char)) :
    flatInput (lines.map .ok) = lines.flatten := by
  induction lines with
  | nil => rfl
  | cons L rest ih => simp [flatInput, ih]

theorem goodInput_map_ok (lines : List (List Char))
    (hne : ∀ L ∈ lines, L ≠ []) : goodInput (lines.map .ok) := by
  intro r hr
  obtain ⟨L, hL, rfl⟩ := List.mem_map.mp hr
  exact ⟨L, rfl, hne L hL⟩

/-- One `next` step under a `goodInput` source: it cannot fail, it delivers
the head of the not-yet-consumed character stream (or `none` at its end),
afterwards the not-yet-consumed stream is the tail, and the character just
delivered sits at the new cursor position of the buffered line. -/
theorem next_flat (s : BufReadIter) (hg : goodInput s.input) :
    ∃ s', BufReadIter.next s = .ok ((flatRest s).head?, s') ∧
      flatRest s' = (flatRest s).tail ∧
      s'.vec_buf[s'.column]? = (flatRest s).head? ∧
      goodInput s'.input := by
  obtain ⟨inp, L, k, ln⟩ := s
  cases hgc : L[k + 1]? with
  | some c =>
    have hlt : k + 1 < L.length := (List.getElem?_eq_some.mp hgc).1
    have hd : L.drop (k + 1) = c :: L.drop (k + 2) := by
      rw [List.drop_eq_getElem_cons hlt]
      rw [List.getElem?_eq_getElem hlt] at hgc
      injection hgc with h
      rw [h]
    have hfr : flatRest ⟨inp, L, k, ln⟩ =
        c :: (L.drop (k + 2) ++ flatInput inp) := by
      simp only [flatRest, hd, List.cons_append]
    refine ⟨⟨inp, L, k + 1, ln⟩, ?_, ?_, ?_, hg⟩
    · rw [BufReadIter.next_within inp ln hgc, hfr]
      rfl
    · rw [hfr]
      rfl
    · rw [hfr]
      exact hgc
  | none =>
    have hlen : L.length ≤ k + 1 := by
      by_contra hlt
      push_neg at hlt
      rw [List.getElem?_eq_getElem hlt] at hgc
      exact absurd hgc (by simp)
    have hdnil : L.drop (k + 1) = [] := List.drop_eq_nil_of_le hlen
    have hfr : flatRest ⟨inp, L, k, ln⟩ = flatInput inp := by
      simp only [flatRest, hdnil, List.nil_append]
    cases inp with
    | nil =>
      refine ⟨⟨[], [], 0, ln + 1⟩, ?_, ?_, ?_, hg⟩
      · rw [BufReadIter.next_eof ln hgc, hfr]
        rfl
      · rw [hfr]
        rfl
      · rw [hfr]
        rfl
    | cons r rest =>
      obtain ⟨cs, rfl, hcs⟩ := hg r (List.mem_cons_self r rest)
      obtain ⟨c0, cs', rfl⟩ : ∃ c0 cs', cs = c0 :: cs' := by
        cases cs with
        | nil => exact absurd rfl hcs
        | cons a m => exact ⟨a, m, rfl⟩
      have hfr2 : flatRest ⟨.ok (c0 :: cs') :: rest, L, k, ln⟩ =
          c0 :: (cs' ++ flatInput rest) := by
        rw [hfr]
        rfl
      refine ⟨⟨rest, c0 :: cs', 0, ln + 1⟩, ?_, ?_, ?_,
        fun x hx => hg x (List.mem_cons_of_mem _ hx)⟩
      · rw [BufReadIter.next_refill rest ln hgc, hfr2]
        simp
      · rw [hfr2]
        rfl
      · rw [hfr2]
        simp

/-! ### Claim C4 -/

/-- The single token produced by one literal (non-backslash) character. -/
def charToken (c : Char) : Token :=
  if c = '{' then .BeginGroup
  else if c = '}' then .EndGroup
  else .Char c

/-- On a backslash-free stream, each `next_res` call consumes exactly one
character and produces exactly its token. -/
theorem next_res_char (s : BufReadIter) (hg : goodInput s.input)
    (c : Char) (rest : List Char) (h : flatRest s = c :: rest)
    (hc : c ≠ '\\') :
    ∃ s', Tokens.next_res s = .ok (some (charToken c), s') ∧
      flatRest s' = rest ∧ goodInput s'.input := by
  obtain ⟨s', hn, ht, -, hgi⟩ := next_flat s hg
  rw [h] at hn ht
  refine ⟨s', ?_, ht, hgi⟩
  by_cases h1 : c = '{'
  · subst h1
    simp [Tokens.next_res, hn, charToken]
  by_cases h2 : c = '}'
  · subst h2
    simp [Tokens.next_res, hn, charToken]
  simp [Tokens.next_res, hn, charToken, h1, h2, hc]

theorem tokensLoop_chars (n : Nat) :
    ∀ (fuel : Nat) (acc : List Token) (s : BufReadIter), goodInput s.input →
      (flatRest s).length = n → (∀ c ∈ flatRest s, c ≠ '\\') → n < fuel →
      Tokens.tokensLoop fuel acc s =
        .ok (acc ++ (flatRest s).map charToken) := by
  induction n with
  | zero =>
    intro fuel acc s hg hlen hnb hfuel
    obtain ⟨f, rfl⟩ : ∃ f, fuel = f + 1 := ⟨fuel - 1, by omega⟩
    have hnil : flatRest s = [] := List.length_eq_zero.mp hlen
    obtain ⟨s', hn, -, -, -⟩ := next_flat s hg
    rw [hnil] at hn
    simp [Tokens.tokensLoop, Tokens.next_res, hn, hnil]
  | succ n ih =>
    intro fuel acc s hg hlen hnb hfuel
    obtain ⟨f, rfl⟩ : ∃ f, fuel = f + 1 := ⟨fuel - 1, by omega⟩
    obtain ⟨c, rest, hcr⟩ : ∃ c rest, flatRest s = c :: rest := by
      cases hx : flatRest s with
      | nil => rw [hx] at hlen; exact absurd hlen (by simp)
      | cons a m => exact ⟨a, m, rfl⟩
    have hcnb : c ≠ '\\' := hnb c (by rw [hcr]; exact List.mem_cons_self c rest)
    obtain ⟨s', hnr, ht, hgi⟩ := next_res_char s hg c rest hcr hcnb
    have hrest : rest.length = n := by
      rw [hcr] at hlen
      simpa using hlen
    have hrec := ih f (acc ++ [charToken c]) s' hgi (by rw [ht]; exact hrest)
      (fun x hx => hnb x (by rw [hcr]; exact List.mem_cons_of_mem c (ht ▸ hx)))
      (by omega)
    simp only [Tokens.tokensLoop, hnr, hrec, ht, hcr, List.map_cons]
    simp

/-- C4: an input whose lines contain no backslash tokenizes successfully to
exactly one token per input character, in input order: `{` to `BeginGroup`,
`}` to `EndGroup`, and every other character `c` to `Char c`.  (Lines of a
real line-readable source are nonempty: each holds at least its newline,
except a nonempty final fragment.) -/
theorem claim_C4_one_token_per_char (lines : List (List Char))
    (hne : ∀ L ∈ lines, L ≠ [])
    (hnb : ∀ L ∈ lines, ∀ c ∈ L, c ≠ '\\') :
    Tokens.tokenize (lines.map .ok) = .ok (lines.flatten.map charToken) := by
  have hg := goodInput_map_ok lines hne
  have hflat : flatRest (BufReadIter.new (lines.map .ok)) = lines.flatten := by
    simp [flatRest, BufReadIter.new, flatInput_map_ok]
  have hsum : (List.map okLen (lines.map .ok)).sum = lines.flatten.length := by
    rw [List.length_flatten, List.map_map]
    rfl
  have hrem : lines.flatten.length <
      remaining (BufReadIter.new (lines.map .ok)) := by
    simp only [remaining, BufReadIter.new, hsum]
    omega
  have h := tokensLoop_chars lines.flatten.length
    (remaining (BufReadIter.new (lines.map .ok))) [] (BufReadIter.new (lines.map .ok))
    hg (by rw [hflat]) (by
      rw [hflat]
      intro c hc
      obtain ⟨L, hL, hcL⟩ := List.mem_flatten.mp hc
      exact hnb L hL c hcL) hrem
  rw [Tokens.tokenize, h, hflat]
  simp

/-- Witness for C4 at the spec's example: `{ab}` yields
`[BeginGroup, Char('a'), Char('b'), EndGroup]`. -/
theorem claim_C4_one_token_per_char_witness :
    Tokens.tokenize ([['{', 'a', 'b', '}']].map .ok) =
      .ok ([['{', 'a', 'b', '}']].flatten.map charToken) :=
  claim_C4_one_token_per_char [['{', 'a', 'b', '}']] (by decide) (by decide)

/-! ### Claim C10 -/

/-- Reading claim C10 literally: the literal characters implied by each
token — `Char c` implies just the single character `c` — with each `Command`
standing for its backslash-prefixed source text. -/
def impliedChars : Token → List Char
  | .BeginGroup => ['{']
  | .EndGroup => ['}']
  | .Char c => [c]
  | .Command name => '\\' :: name
  | .Verbatim v => v

/-- The source text a verbatim-free token consumed: as `impliedChars`, except
that the escaped characters `Char '\'`, `Char '{'`, `Char '}'` — which, in a
tokenization, can only arise from their two-character escape sequences —
stand for those two-character sequences. -/
def tokenSource : Token → List Char
  | .BeginGroup => ['{']
  | .EndGroup => ['}']
  | .Char c => if c = '\\' ∨ c = '{' ∨ c = '}' then ['\\', c] else [c]
  | .Command name => '\\' :: name
  | .Verbatim v => v

theorem takeWhile_length_le (p : Char → Bool) (l : List Char) :
    (l.takeWhile p).length ≤ l.length := by
  induction l with
  | nil => simp
  | cons a m ih =>
    by_cases hp : p a
    · rw [List.takeWhile_cons, if_pos hp]
      simp only [List.length_cons]
      omega
    · rw [List.takeWhile_cons, if_neg hp]
      simp

theorem dropWhile_head_not (p : Char → Bool) (l : List Char) :
    ∀ c, (l.dropWhile p).head? = some c → p c = false := by
  induction l with
  | nil =>
    intro c hc
    exact absurd hc (by simp)
  | cons a m ih =>
    intro c hc
    by_cases hp : p a
    · rw [List.dropWhile_cons, if_pos hp] at hc
      exact ih c hc
    · rw [List.dropWhile_cons, if_neg hp] at hc
      rw [List.head?_cons] at hc
      injection hc with h
      rw [← h]
      simpa using hp

/-- One `next_res` step under a `goodInput` source, classified: either the
stream is exhausted and no token is produced; or a token is produced and —
when it is not a `Verbatim` token — the characters consumed for it are
exactly its `tokenSource`; or an error is produced. -/
theorem next_res_source (s : BufReadIter) (hg : goodInput s.input) :
    (∃ s', Tokens.next_res s = .ok (none, s') ∧ flatRest s = []) ∨
    (∃ t s', Tokens.next_res s = .ok (some t, s') ∧
      ((∀ v, t ≠ .Verbatim v) →
        goodInput s'.input ∧ flatRest s = tokenSource t ++ flatRest s')) ∨
    (∃ e, Tokens.next_res s = .error e) := by
  obtain ⟨s1, hn, ht1, hcur1, hg1⟩ := next_flat s hg
  cases hfr : flatRest s with
  | nil =>
    rw [hfr] at hn
    exact Or.inl ⟨s1, by simp [Tokens.next_res, hn], rfl⟩
  | cons c rest0 =>
    rw [hfr] at hn ht1 hcur1
    rw [List.head?_cons] at hn hcur1
    rw [List.tail_cons] at ht1
    by_cases hc1 : c = '{'
    · subst hc1
      refine Or.inr (Or.inl ⟨.BeginGroup, s1, by simp [Tokens.next_res, hn],
        fun _ => ⟨hg1, ?_⟩⟩)
      rw [ht1]
      rfl
    by_cases hc2 : c = '}'
    · subst hc2
      refine Or.inr (Or.inl ⟨.EndGroup, s1, by simp [Tokens.next_res, hn],
        fun _ => ⟨hg1, ?_⟩⟩)
      rw [ht1]
      rfl
    by_cases hc3 : c = '\\'
    case neg =>
      refine Or.inr (Or.inl ⟨.Char c, s1,
        by simp [Tokens.next_res, hn, hc1, hc2, hc3], fun _ => ⟨hg1, ?_⟩⟩)
      rw [ht1]
      simp [tokenSource, hc1, hc2, hc3]
    case pos =>
    subst hc3
    obtain ⟨s2, hn2, ht2, hcur2, hg2⟩ := next_flat s1 hg1
    cases hfr1 : flatRest s1 with
    | nil =>
      rw [hfr1] at hn2
      rw [List.head?_nil] at hn2
      have hexp : BufReadIter.expect_next s1 = .error .EndOfInput := by
        rw [BufReadIter.expect_next, hn2]
      exact Or.inr (Or.inr ⟨.EndOfInput, by simp [Tokens.next_res, hn, hexp]⟩)
    | cons c2 rest2 =>
      rw [hfr1] at hn2 ht2 hcur2
      rw [List.head?_cons] at hn2 hcur2
      rw [List.tail_cons] at ht2
      have hexp : BufReadIter.expect_next s1 = .ok (c2, s2) := by
        rw [BufReadIter.expect_next, hn2]
      have hrest0 : rest0 = c2 :: rest2 := by
        rw [← ht1, hfr1]
      by_cases hd1 : c2 = '\\'
      · subst hd1
        refine Or.inr (Or.inl ⟨.Char '\\', s2,
          by simp [Tokens.next_res, hn, hexp], fun _ => ⟨hg2, ?_⟩⟩)
        rw [hrest0, ht2]
        simp [tokenSource]
      by_cases hd2 : c2 = '{'
      · subst hd2
        refine Or.inr (Or.inl ⟨.Char '{', s2,
          by simp [Tokens.next_res, hn, hexp, hd1], fun _ => ⟨hg2, ?_⟩⟩)
        rw [hrest0, ht2]
        simp [tokenSource]
      by_cases hd3 : c2 = '}'
      · subst hd3
        refine Or.inr (Or.inl ⟨.Char '}', s2,
          by simp [Tokens.next_res, hn, hexp, hd1, hd2], fun _ => ⟨hg2, ?_⟩⟩)
        rw [hrest0, ht2]
        simp [tokenSource]
      by_cases hd4 : c2.isAlphanum
      case neg =>
        have hd4' : c2.isAlphanum = false := by simpa using hd4
        refine Or.inr (Or.inl ⟨.Command [c2], s2,
          by simp [Tokens.next_res, hn, hexp, hd1, hd2, hd3, hd4'],
          fun _ => ⟨hg2, ?_⟩⟩)
        rw [hrest0, ht2]
        simp [tokenSource]
      case pos =>
      obtain ⟨inp2, L2, k2, ln2⟩ := s2
      obtain ⟨A, hA⟩ :
          ∃ A, A = (L2.drop (k2 + 1)).takeWhile (fun x => x.isAlphanum) :=
        ⟨_, rfl⟩
      obtain ⟨B, hB⟩ :
          ∃ B, B = (L2.drop (k2 + 1)).dropWhile (fun x => x.isAlphanum) :=
        ⟨_, rfl⟩
      have hsplit : L2.drop (k2 + 1) = A ++ B := by
        rw [hA, hB]
        exact (List.takeWhile_append_dropWhile _ _).symm
      have hall : ∀ x ∈ A, x.isAlphanum = true := by
        rw [hA]
        exact fun x hx => List.mem_takeWhile_imp hx
      have hremhead : ∀ x, B.head? = some x → x.isAlphanum = false := by
        rw [hB]
        exact dropWhile_head_not _ _
      have hk2 : k2 < L2.length := (List.getElem?_eq_some.mp hcur2).1
      have hrunlen : A.length < L2.length := by
        have h1 := takeWhile_length_le (fun x => x.isAlphanum)
          (L2.drop (k2 + 1))
        have h2 : (L2.drop (k2 + 1)).length = L2.length - (k2 + 1) := by simp
        rw [hA]
        omega
      have hident : Tokens.ident c2 ⟨inp2, L2, k2, ln2⟩ =
          (c2 :: A, ⟨inp2, L2, k2 + A.length, ln2⟩) := by
        have h := Tokens.identLoop_spec A B inp2 L2 k2 L2.length ln2 [c2]
          hsplit hall hremhead hrunlen
        simpa [Tokens.ident] using h
      have hdrop3 : L2.drop (k2 + A.length + 1) = B := by
        have h5 : (A ++ B).drop A.length = B := List.drop_left A B
        rw [← hsplit] at h5
        rw [List.drop_drop] at h5
        have hidx : k2 + A.length + 1 = (k2 + 1) + A.length := by omega
        rw [hidx]
        exact h5
      have hflat3 : flatRest ⟨inp2, L2, k2 + A.length, ln2⟩ =
          B ++ flatInput inp2 := by
        simp only [flatRest, hdrop3]
      have hrest2eq : rest2 = A ++ (B ++ flatInput inp2) := by
        rw [← ht2]
        simp only [flatRest]
        rw [hsplit, List.append_assoc]
      by_cases hcv : (c2 :: A) = "verbatim".toList
      · cases hx : BufReadIter.expect_next
            (⟨inp2, L2, k2 + A.length, ln2⟩ : BufReadIter) with
        | error e =>
          exact Or.inr (Or.inr ⟨e, by
            simp [Tokens.next_res, hn, hexp, hd1, hd2, hd3, hd4, hident, hcv,
              hx]⟩)
        | ok p =>
          obtain ⟨delim, s4⟩ := p
          cases hv : Tokens.verbatim delim s4.line s4.column s4 with
          | error e =>
            exact Or.inr (Or.inr ⟨e, by
              simp [Tokens.next_res, hn, hexp, hd1, hd2, hd3, hd4, hident,
                hcv, hx, hv]⟩)
          | ok q =>
            obtain ⟨v, s5⟩ := q
            exact Or.inr (Or.inl ⟨.Verbatim v, s5, by
              simp [Tokens.next_res, hn, hexp, hd1, hd2, hd3, hd4, hident,
                hcv, hx, hv],
              fun himp => absurd rfl (himp v)⟩)
      · refine Or.inr (Or.inl ⟨.Command (c2 :: A),
          ⟨inp2, L2, k2 + A.length, ln2⟩, by
            have d1 : ¬(('\\' : Char) = '{') := by decide
            have d2 : ¬(('\\' : Char) = '}') := by decide
            have d3 : (('\\' : Char) = '\\') := rfl
            simp only [Tokens.next_res, hn, hexp, hident]
            simp only [if_neg d1, if_neg d2, if_pos d3, if_neg hd1,
              if_neg hd2, if_neg hd3, if_pos hd4, if_neg hcv]
            simp,
          fun _ => ⟨hg2, ?_⟩⟩)
        rw [hrest0, hflat3, hrest2eq]
        simp [tokenSource]

theorem tokensLoop_prefix :
    ∀ (fuel : Nat) (acc : List Token) (s : BufReadIter) (toks : List Token),
      Tokens.tokensLoop fuel acc s = .ok toks →
      ∃ suffix, toks = acc ++ suffix := by
  intro fuel
  induction fuel with
  | zero =>
    intro acc s toks h
    rw [Tokens.tokensLoop] at h
    exact absurd h (by simp)
  | succ f ih =>
    intro acc s toks h
    rw [Tokens.tokensLoop] at h
    cases hn : Tokens.next_res s with
    | error e =>
      rw [hn] at h
      exact absurd h (by simp)
    | ok p =>
      obtain ⟨ot, s'⟩ := p
      cases ot with
      | none =>
        rw [hn] at h
        injection h with h'
        exact ⟨[], by rw [← h']; simp⟩
      | some t =>
        rw [hn] at h
        obtain ⟨suffix, hs⟩ := ih (acc ++ [t]) s' toks h
        exact ⟨t :: suffix, by rw [hs]; simp⟩

/-- The collection loop, on a `goodInput` source, reconstructs the whole
unconsumed character stream from the sources of the tokens it returns —
provided none of them is a `Verbatim` token. -/
theorem tokensLoop_source :
    ∀ (fuel : Nat) (acc : List Token) (s : BufReadIter) (toks : List Token),
      goodInput s.input → Tokens.tokensLoop fuel acc s = .ok toks →
      (∀ t ∈ toks, ∀ v, t ≠ .Verbatim v) →
      ∃ new, toks = acc ++ new ∧ flatRest s = new.flatMap tokenSource := by
  intro fuel
  induction fuel with
  | zero =>
    intro acc s toks hg h hnv
    rw [Tokens.tokensLoop] at h
    exact absurd h (by simp)
  | succ f ih =>
    intro acc s toks hg h hnv
    rw [Tokens.tokensLoop] at h
    rcases next_res_source s hg with ⟨s', hn, hflat⟩ | ⟨t, s', hn, himp⟩ |
      ⟨e, hn⟩
    · rw [hn] at h
      injection h with h'
      refine ⟨[], by rw [← h']; simp, by rw [hflat]; rfl⟩
    · rw [hn] at h
      obtain ⟨suffix, hs⟩ := tokensLoop_prefix f (acc ++ [t]) s' toks h
      have htmem : t ∈ toks := by
        rw [hs]
        simp
      obtain ⟨hg', hsrc⟩ := himp (fun v => hnv t htmem v)
      obtain ⟨new, hnew, hflat'⟩ := ih (acc ++ [t]) s' toks hg' h hnv
      refine ⟨t :: new, by rw [hnew]; simp, ?_⟩
      rw [hsrc, hflat', List.flatMap_cons]
    · rw [hn] at h
      exact absurd h (by simp)

/-- Claim C10 read literally is false: the input `\\` tokenizes successfully
to `[Char('\')]` with no `Verbatim` token, but concatenating the literal
characters implied by that token gives `\`, one byte, not the two-byte
original input. -/
theorem claim_C10_literal_counterexample :
    Tokens.tokenize [.ok ['\\', '\\']] = .ok [.Char '\\'] ∧
    ¬([Token.Char '\\'].flatMap impliedChars = ['\\', '\\']) := by
  constructor
  · decide
  · decide

/-- C10 (amended): for every successfully tokenized input whose token
sequence contains no `Verbatim` token, concatenating the source text each
token stands for — `BeginGroup`/`EndGroup`/plain `Char c` stand for their
single literal character, each `Command` for its backslash-prefixed source
text, and each escaped `Char` (`\`, `{`, `}`, which can only arise from
escape sequences) for its two-character backslash-escaped source text —
reconstructs the original input byte-identically. -/
theorem claim_C10_roundtrip_amended (lines : List (List Char))
    (toks : List Token) (hne : ∀ L ∈ lines, L ≠ [])
    (h : Tokens.tokenize (lines.map .ok) = .ok toks)
    (hv : ∀ t ∈ toks, ∀ v, t ≠ .Verbatim v) :
    toks.flatMap tokenSource = lines.flatten := by
  have hg := goodInput_map_ok lines hne
  have hflat : flatRest (BufReadIter.new (lines.map .ok)) = lines.flatten := by
    simp [flatRest, BufReadIter.new, flatInput_map_ok]
  rw [Tokens.tokenize] at h
  obtain ⟨new, hnew, hflat'⟩ := tokensLoop_source _ [] _ toks hg h hv
  rw [List.nil_append] at hnew
  rw [← hflat, hflat', hnew]

/-- Witness for the amended C10 at an input exercising every verbatim-free
token shape, escapes included: `\ab \\{x}` reconstructs byte-identically. -/
theorem claim_C10_roundtrip_amended_witness :
    ([.Command ['a', 'b'], .Char ' ', .Char '\\', .BeginGroup, .Char 'x',
        .EndGroup] : List Token).flatMap tokenSource =
      [['\\', 'a', 'b', ' ', '\\', '\\', '{', 'x', '}']].flatten :=
  claim_C10_roundtrip_amended
    [['\\', 'a', 'b', ' ', '\\', '\\', '{', 'x', '}']]
    [.Command ['a', 'b'], .Char ' ', .Char '\\', .BeginGroup, .Char 'x',
      .EndGroup] (by decide) (by decide) (by
        intro t ht v hveq
        rw [hveq] at ht
        simp at ht)

end Formatting
